import Mathlib

/-!
Verification of the Lagrange-interpolation core of `src/main.py`
(classes `ForexData` and `ForexLagrangeApp`).

The symbolic pipeline (`ForexLagrangeApp`) works over exact rationals
(`fractions.Fraction` for the points, sympy rational arithmetic for the
polynomial construction with two or more points); it is embedded here with
`ℚ` and with polynomials represented as coefficient lists (`List ℚ`, index =
exponent), the canonical expanded form that `sympy.simplify` produces for a
polynomial expression.  Two spots of this pipeline are binary64 float
arithmetic, not exact, and are modelled with the concrete rounding
`round64`: the single-point case of the builder (where `1/1` is the float
`1.0`) and the final substitution (`float(...)` parse of the x entry and
sympy's 53-bit `subs` arithmetic, `subsFloat`).

The numeric pipeline (`ForexData`) works in Python binary64 floating point:
every operation computes the exact rational result and rounds it.  Its
theorems are proved for every rounding function with the faithful-rounding
properties (`Rounding`: relative error at most `2⁻⁵³`, idempotence) that
IEEE-754 round-to-nearest satisfies; `round64` is an explicit executable
round-to-nearest-even model used where a concrete rounded value matters
(the `float` parse of the Lagrange x entry).
-/

set_option maxRecDepth 16000

/-- Coefficient-list polynomials over `ℚ`: entry `k` is the coefficient of
`x^k`.  This is the canonical expanded form that `sympy.simplify` keeps for
the polynomial expressions built by `compute_lagrange_polynomial`. -/
abbrev PolyQ := List ℚ

/-- Coefficient of `x^k` (zero beyond the list's length). -/
def polyCoeff (p : PolyQ) (k : ℕ) : ℚ := p.getD k 0

/-- Coefficient-wise polynomial addition. -/
def polyAdd : PolyQ → PolyQ → PolyQ
  | [], q => q
  | p, [] => p
  | a :: p, b :: q => (a + b) :: polyAdd p q

/-- Multiplication of a polynomial by the scalar `c`. -/
def polyScale (c : ℚ) (p : PolyQ) : PolyQ := p.map (fun a => c * a)

/-- Multiplication of a polynomial by the linear factor `(x - r)`; this is the
`numerator *= (x - points[j][0])` step of `compute_lagrange_polynomial`. -/
def polyMulLin (r : ℚ) (p : PolyQ) : PolyQ := polyAdd (polyScale (-r) p) (0 :: p)

/-- Evaluation of a coefficient list at `x` (Horner form). -/
def polyEval (p : PolyQ) (x : ℚ) : ℚ :=
  match p with
  | [] => 0
  | a :: q => a + x * polyEval q x

/-- Dropping of trailing zero coefficients: `sympy.simplify` omits zero terms,
so the canonical form carries no zero leading coefficient. -/
def polyTrim : PolyQ → PolyQ
  | [] => []
  | a :: p =>
    match polyTrim p with
    | [] => if a = 0 then [] else [a]
    | q => a :: q

/-- Canonical-form predicate: the list has no trailing zero coefficient. -/
def polyCanon : PolyQ → Prop
  | [] => True
  | [a] => a ≠ 0
  | _ :: p => polyCanon p

/-- Lagrange basis numerator of point `i`: the loop
`for j: if j != i: numerator *= (x - points[j][0])` of
`compute_lagrange_polynomial`, starting from the constant polynomial `1`. -/
def lagrangeNumer (xs : List ℚ) (i : ℕ) : PolyQ :=
  ((List.range xs.length).filter (fun j => j ≠ i)).foldl
    (fun acc j => polyMulLin (xs.getD j 0) acc) [1]

/-- Lagrange basis denominator of point `i`: the loop
`for j: if j != i: denominator *= (points[i][0] - points[j][0])`. -/
def lagrangeDenom (xs : List ℚ) (i : ℕ) : ℚ :=
  ((List.range xs.length).filter (fun j => j ≠ i)).foldl
    (fun acc j => acc * (xs.getD i 0 - xs.getD j 0)) 1

/-! ### A binary64 model for the values Python floats take -/

/-- Number of binary digits of `n`, computed with explicit fuel (the number
itself) so that it reduces by kernel computation. -/
def bitLenAux : ℕ → ℕ → ℕ
  | 0, _ => 0
  | fuel + 1, n => if n = 0 then 0 else bitLenAux fuel (n / 2) + 1

/-- Number of binary digits of `n` (`bitLen 0 = 0`). -/
def bitLen (n : ℕ) : ℕ := bitLenAux n n

/-- Rounding of the exact ratio `N / D` to the nearest integer, ties going to
the even neighbour (`D ≠ 0`). -/
def rne (N D : ℕ) : ℕ :=
  let q := N / D
  let r := N % D
  if 2 * r < D then q else if D < 2 * r then q + 1 else if q % 2 = 0 then q else q + 1

/-- Binary64 (IEEE 754 double, round-to-nearest-even) value of the positive
rational `a / b`: the 53-bit mantissa is found from the binary magnitude of
`a * 2^250 / b`.  Valid for the normal range exercised here (all inputs lie
well inside `2^-200 .. 2^1000`); overflow and subnormals are not modelled. -/
def round64Pos (a b : ℕ) : ℚ :=
  let L := bitLen (a * 2 ^ 250 / b)
  if L ≤ 303 then ((rne (a * 2 ^ (303 - L)) b : ℕ) : ℚ) / ((2 ^ (303 - L) : ℕ) : ℚ)
  else ((rne a (b * 2 ^ (L - 303)) : ℕ) : ℚ) * ((2 ^ (L - 303) : ℕ) : ℚ)

/-- Binary64 value nearest to the rational `q` (round-to-nearest-even):
the value a Python float holds after parsing or computing `q` exactly. -/
def round64 (q : ℚ) : ℚ :=
  if q = 0 then 0
  else if 0 < q then round64Pos q.num.toNat q.den
  else -round64Pos (-q.num).toNat q.den

/-- Accumulation loop of `compute_lagrange_polynomial`:
`lagrange_poly += (numerator / denominator) * points[i][1]`, starting from
the integer `0` (the empty polynomial).

When the inner `for j` loop body never runs — exactly the single-point case —
`numerator` and `denominator` remain the plain Python ints `1`, so
`(numerator / denominator)` is the true division `1 / 1 = 1.0` (a float) and
`1.0 * points[i][1]` falls back to float arithmetic: the term is the binary64
value of `y_i` (`round64`), not the exact rational.  With two or more points
`numerator` is a sympy expression and `denominator` a `Fraction`, and every
operation is exact rational arithmetic. -/
def lagrangeSumPoly (points : List (ℚ × ℚ)) : PolyQ :=
  (List.range points.length).foldl
    (fun acc i =>
      polyAdd acc
        (if ((List.range points.length).filter (fun j => j ≠ i)) = [] then
          [round64 (points.getD i (0, 0)).2]
        else
          polyScale
            ((points.getD i (0, 0)).2 / lagrangeDenom (points.map Prod.fst) i)
            (lagrangeNumer (points.map Prod.fst) i))) []

/-- Embedding of `ForexLagrangeApp.compute_lagrange_polynomial` (src/main.py
lines 188-200): sum over all points of `(numerator/denominator) * y_i`,
returned in the canonical expanded form produced by `simplify`.  When two
points share an abscissa some `denominator` is the exact rational zero; sympy
then turns `numerator/denominator` into the non-numeric expression
`zoo * numerator` (complex infinity) and the function's value is not a
polynomial at all — that outcome is modelled by `none`.  For a single point
the returned constant is the binary64 float of `y_0`, not the exact rational
(see `lagrangeSumPoly`). -/
def compute_lagrange_polynomial (points : List (ℚ × ℚ)) : Option PolyQ :=
  if ((List.range points.length).all fun i =>
      lagrangeDenom (points.map Prod.fst) i != 0) then
    some (polyTrim (lagrangeSumPoly points))
  else none

/-! ### Basic evaluation lemmas -/

theorem polyEval_polyAdd (p q : PolyQ) (x : ℚ) :
    polyEval (polyAdd p q) x = polyEval p x + polyEval q x := by
  induction p generalizing q with
  | nil => simp [polyAdd, polyEval]
  | cons a p ih =>
    cases q with
    | nil => simp [polyAdd, polyEval]
    | cons b q => simp [polyAdd, polyEval, ih]; ring

theorem polyEval_polyScale (c : ℚ) (p : PolyQ) (x : ℚ) :
    polyEval (polyScale c p) x = c * polyEval p x := by
  induction p with
  | nil => simp [polyScale, polyEval]
  | cons a p ih => simp [polyScale, polyEval] at *; rw [ih]; ring

theorem polyEval_polyMulLin (r : ℚ) (p : PolyQ) (x : ℚ) :
    polyEval (polyMulLin r p) x = (x - r) * polyEval p x := by
  unfold polyMulLin
  rw [polyEval_polyAdd, polyEval_polyScale]
  simp [polyEval]
  ring

theorem polyTrim_eq_nil_eval (p : PolyQ) (hp : polyTrim p = []) (x : ℚ) :
    polyEval p x = 0 := by
  induction p with
  | nil => rfl
  | cons a p ih =>
    unfold polyTrim at hp
    revert hp
    cases htp : polyTrim p with
    | nil =>
      intro hp
      by_cases ha : a = 0
      · simp [polyEval, ha, ih htp]
      · simp [ha] at hp
    | cons b q => intro hp; simp at hp

theorem polyEval_polyTrim (p : PolyQ) (x : ℚ) :
    polyEval (polyTrim p) x = polyEval p x := by
  induction p with
  | nil => rfl
  | cons a p ih =>
    unfold polyTrim
    cases htp : polyTrim p with
    | nil =>
      by_cases ha : a = 0
      · simp [ha, polyEval, polyTrim_eq_nil_eval p htp]
      · simp [ha, polyEval, polyTrim_eq_nil_eval p htp, ← ih, htp]
    | cons b q =>
      simp [polyEval, ← ih, htp]

theorem polyTrim_eq_nil_coeff (p : PolyQ) (hp : polyTrim p = []) (k : ℕ) :
    polyCoeff p k = 0 := by
  induction p generalizing k with
  | nil => simp [polyCoeff]
  | cons a p ih =>
    unfold polyTrim at hp
    revert hp
    cases htp : polyTrim p with
    | nil =>
      intro hp
      by_cases ha : a = 0
      · cases k with
        | zero => simpa [polyCoeff] using ha
        | succ k => simpa [polyCoeff] using ih htp k
      · simp [ha] at hp
    | cons b q => intro hp; simp at hp

theorem polyCoeff_polyTrim (p : PolyQ) (k : ℕ) :
    polyCoeff (polyTrim p) k = polyCoeff p k := by
  induction p generalizing k with
  | nil => rfl
  | cons a p ih =>
    unfold polyTrim
    cases htp : polyTrim p with
    | nil =>
      by_cases ha : a = 0
      · cases k with
        | zero => simp [ha, polyCoeff]
        | succ k => simpa [ha, polyCoeff] using (polyTrim_eq_nil_coeff p htp k).symm
      · cases k with
        | zero => simp [ha, polyCoeff]
        | succ k => simpa [ha, polyCoeff] using (polyTrim_eq_nil_coeff p htp k).symm
    | cons b q =>
      cases k with
      | zero => simp [polyCoeff]
      | succ k => simpa [polyCoeff] using (htp ▸ ih k :)

theorem polyCanon_polyTrim (p : PolyQ) : polyCanon (polyTrim p) := by
  induction p with
  | nil => trivial
  | cons a p ih =>
    unfold polyTrim
    cases htp : polyTrim p with
    | nil =>
      by_cases ha : a = 0
      · simp [ha, polyCanon]
      · simp [ha, polyCanon]
    | cons b q =>
      rw [htp] at ih
      exact ih

theorem polyCanon_cons (a : ℚ) (p : PolyQ) (h : polyCanon (a :: p)) :
    polyCanon p := by
  cases p with
  | nil => trivial
  | cons b q => exact h

theorem polyCanon_eq_nil (p : PolyQ) (hc : polyCanon p)
    (h0 : ∀ k, polyCoeff p k = 0) : p = [] := by
  induction p with
  | nil => rfl
  | cons a p ih =>
    have ha : a = 0 := h0 0
    have hp : p = [] := by
      refine ih (polyCanon_cons a p hc) (fun k => ?_)
      simpa [polyCoeff] using h0 (k + 1)
    subst hp
    simp [polyCanon, ha] at hc

/-- Canonical coefficient lists with the same coefficient function are equal:
the canonical expanded form of a polynomial is unique. -/
theorem polyCanon_ext (p : PolyQ) :
    ∀ q : PolyQ, polyCanon p → polyCanon q →
      (∀ k, polyCoeff p k = polyCoeff q k) → p = q := by
  induction p with
  | nil =>
    intro q _ hq h
    exact (polyCanon_eq_nil q hq (fun k => by simpa [polyCoeff] using (h k).symm)).symm
  | cons a p ih =>
    intro q hp hq h
    cases q with
    | nil =>
      exact polyCanon_eq_nil (a :: p) hp (fun k => by simpa [polyCoeff] using h k)
    | cons b q =>
      have hab : a = b := by simpa [polyCoeff] using h 0
      have hpq : p = q := by
        refine ih q (polyCanon_cons a p hp) (polyCanon_cons b q hq) (fun k => ?_)
        simpa [polyCoeff] using h (k + 1)
      rw [hab, hpq]

/-! ### Fold lemmas for the Lagrange construction -/

theorem foldl_mul_eq_prod {α : Type} {M : Type} [CommMonoid M]
    (l : List α) (f : α → M) (c : M) :
    l.foldl (fun a j => a * f j) c = c * (l.map f).prod := by
  induction l generalizing c with
  | nil => simp
  | cons j l ih => simp [ih, mul_assoc]

theorem polyEval_foldl_polyMulLin (l : List ℕ) (xs : List ℚ) (p : PolyQ) (x : ℚ) :
    polyEval (l.foldl (fun acc j => polyMulLin (xs.getD j 0) acc) p) x
      = polyEval p x * (l.map (fun j => x - xs.getD j 0)).prod := by
  induction l generalizing p with
  | nil => simp
  | cons j l ih =>
    simp only [List.foldl_cons, List.map_cons, List.prod_cons]
    rw [ih, polyEval_polyMulLin]
    ring

theorem polyEval_lagrangeNumer (xs : List ℚ) (i : ℕ) (x : ℚ) :
    polyEval (lagrangeNumer xs i) x
      = (((List.range xs.length).filter (fun j => j ≠ i)).map
          (fun j => x - xs.getD j 0)).prod := by
  unfold lagrangeNumer
  rw [polyEval_foldl_polyMulLin]
  simp [polyEval]

theorem lagrangeDenom_eq_prod (xs : List ℚ) (i : ℕ) :
    lagrangeDenom xs i
      = (((List.range xs.length).filter (fun j => j ≠ i)).map
          (fun j => xs.getD i 0 - xs.getD j 0)).prod := by
  unfold lagrangeDenom
  rw [foldl_mul_eq_prod]
  simp

theorem polyEval_foldl_polyAdd (l : List ℕ) (f : ℕ → PolyQ) (p : PolyQ) (x : ℚ) :
    polyEval (l.foldl (fun acc i => polyAdd acc (f i)) p) x
      = polyEval p x + (l.map (fun i => polyEval (f i) x)).sum := by
  induction l generalizing p with
  | nil => simp
  | cons i l ih =>
    simp only [List.foldl_cons, List.map_cons, List.sum_cons]
    rw [ih, polyEval_polyAdd]
    ring

theorem sum_map_range_eq_single (g : ℕ → ℚ) :
    ∀ n k : ℕ, k < n → (∀ i, i < n → i ≠ k → g i = 0) →
      ((List.range n).map g).sum = g k := by
  intro n
  induction n with
  | zero => omega
  | succ n ih =>
    intro k hk hz
    rw [List.range_succ, List.map_append, List.sum_append]
    by_cases hkn : k = n
    · subst hkn
      have hzero : ((List.range k).map g).sum = 0 := by
        have hall : ∀ q ∈ (List.range k).map g, q = 0 := by
          intro q hq
          obtain ⟨i, hi, rfl⟩ := List.mem_map.mp hq
          exact hz i (Nat.lt_succ_of_lt (List.mem_range.mp hi))
            (Nat.ne_of_lt (List.mem_range.mp hi))
        simpa using List.sum_eq_zero hall
      simp [hzero]
    · have hk' : k < n := by omega
      rw [ih k hk' (fun i hi hik => hz i (Nat.lt_succ_of_lt hi) hik)]
      simp [hz n (Nat.lt_succ_self n) (fun h => hkn h.symm)]

/-! ### The interpolation property of the symbolic builder -/

theorem distinct_getD (xs : List ℚ) (hd : xs.Pairwise (· ≠ ·))
    (i j : ℕ) (hi : i < xs.length) (hj : j < xs.length) (hij : i ≠ j) :
    xs.getD i 0 ≠ xs.getD j 0 := by
  have hget := List.pairwise_iff_getElem.mp hd
  rw [List.getD_eq_getElem?_getD, List.getD_eq_getElem?_getD,
    List.getElem?_eq_getElem hi, List.getElem?_eq_getElem hj]
  rcases Nat.lt_or_ge i j with h | h
  · exact hget i j hi hj h
  · have hji : j < i := by omega
    exact (hget j i hj hi hji).symm

theorem lagrangeDenom_ne_zero (xs : List ℚ) (hd : xs.Pairwise (· ≠ ·))
    (i : ℕ) (hi : i < xs.length) : lagrangeDenom xs i ≠ 0 := by
  rw [lagrangeDenom_eq_prod]
  apply List.prod_ne_zero
  intro hmem
  obtain ⟨j, hjf, hval⟩ := List.mem_map.mp hmem
  have hjr := List.mem_filter.mp hjf
  have hj : j < xs.length := List.mem_range.mp hjr.1
  have hji : j ≠ i := by simpa using hjr.2
  exact distinct_getD xs hd i j hi hj (fun h => hji h.symm) (sub_eq_zero.mp hval)

theorem filter_ne_nil_of_two_le (n i : ℕ) (h2 : 2 ≤ n) (_hi : i < n) :
    ((List.range n).filter (fun j => j ≠ i)) ≠ [] := by
  have hj : (if i = 0 then 1 else 0) ∈ (List.range n).filter (fun j => j ≠ i) := by
    refine List.mem_filter.mpr ⟨List.mem_range.mpr ?_, ?_⟩
    · by_cases h : i = 0 <;> simp [h] <;> omega
    · by_cases h : i = 0
      · simp [h]
      · simp [h]
        exact fun he => h he.symm
  exact List.ne_nil_of_mem hj

theorem polyEval_lagrangeSumPoly_at (points : List (ℚ × ℚ)) (k : ℕ)
    (h2 : 2 ≤ points.length) (hk : k < points.length)
    (hden : ∀ i, i < points.length →
      lagrangeDenom (points.map Prod.fst) i ≠ 0) :
    polyEval (lagrangeSumPoly points) ((points.map Prod.fst).getD k 0)
      = (points.getD k (0, 0)).2 := by
  have hlen : (points.map Prod.fst).length = points.length := List.length_map _ _
  unfold lagrangeSumPoly
  rw [polyEval_foldl_polyAdd]
  rw [sum_map_range_eq_single _ points.length k hk ?_]
  · rw [if_neg (filter_ne_nil_of_two_le points.length k h2 hk)]
    rw [polyEval_polyScale, polyEval_lagrangeNumer, ← lagrangeDenom_eq_prod]
    simp [div_mul_cancel₀ _ (hden k hk), polyEval]
  · intro i hi hik
    rw [if_neg (filter_ne_nil_of_two_le points.length i h2 hi)]
    rw [polyEval_polyScale, polyEval_lagrangeNumer]
    have hzero : (0 : ℚ) ∈ ((List.range (points.map Prod.fst).length).filter
        (fun j => j ≠ i)).map
          (fun j => (points.map Prod.fst).getD k 0 - (points.map Prod.fst).getD j 0) := by
      refine List.mem_map.mpr ⟨k, List.mem_filter.mpr ⟨?_, ?_⟩, ?_⟩
      · exact List.mem_range.mpr (hlen ▸ hk)
      · simpa using Ne.symm hik
      · exact sub_self _
    rw [List.prod_eq_zero hzero, mul_zero]

theorem compute_lagrange_polynomial_eq_some (points : List (ℚ × ℚ))
    (hd : (points.map Prod.fst).Pairwise (· ≠ ·)) :
    compute_lagrange_polynomial points = some (polyTrim (lagrangeSumPoly points)) := by
  have hlen : (points.map Prod.fst).length = points.length := List.length_map _ _
  unfold compute_lagrange_polynomial
  rw [if_pos]
  rw [List.all_eq_true]
  intro i hi
  exact bne_iff_ne.mpr
    (lagrangeDenom_ne_zero _ hd i (hlen ▸ List.mem_range.mp hi))

/-- Core interpolation property: whenever the builder returns a polynomial,
that polynomial passes through every supplied point. -/
theorem compute_lagrange_polynomial_eval_mem (points : List (ℚ × ℚ)) (p : PolyQ)
    (h2 : 2 ≤ points.length)
    (hd : (points.map Prod.fst).Pairwise (· ≠ ·))
    (hp : compute_lagrange_polynomial points = some p) :
    ∀ pr ∈ points, polyEval p pr.1 = pr.2 := by
  intro pr hmem
  have hlen : (points.map Prod.fst).length = points.length := List.length_map _ _
  have hsome := compute_lagrange_polynomial_eq_some points hd
  rw [hsome] at hp
  have hpeq : p = polyTrim (lagrangeSumPoly points) := (Option.some.injEq _ _ ▸ hp).symm
  obtain ⟨k, hk, hkeq⟩ := List.mem_iff_getElem.mp hmem
  have hden : ∀ i, i < points.length →
      lagrangeDenom (points.map Prod.fst) i ≠ 0 := by
    intro i hi
    exact lagrangeDenom_ne_zero _ hd i (by omega)
  have hx : (points.map Prod.fst).getD k 0 = pr.1 := by
    rw [List.getD_eq_getElem?_getD, List.getElem?_eq_getElem (by simpa using hk)]
    simp [← hkeq]
  have hy : (points.getD k (0, 0)).2 = pr.2 := by
    rw [List.getD_eq_getElem?_getD, List.getElem?_eq_getElem hk]
    simp [hkeq]
  rw [hpeq, polyEval_polyTrim, ← hx, polyEval_lagrangeSumPoly_at points k h2 hk hden, hy]

/-! ### Claims C1 and C5 -/

/-- C1 counterexample: on the singleton point set [(0, 1/3)] — pairwise
distinct abscissas hold vacuously — the builder succeeds, but its constant is
the binary64 float of 1/3 (Python computes `(1/1) * y0 = 1.0 * Fraction(1,3)`
in float arithmetic), so evaluating the produced polynomial at the input
abscissa does not return the input ordinate. -/
theorem C1_counterexample_singleton_not_exact :
    (([((0 : ℚ), (1 / 3 : ℚ))].map Prod.fst).Pairwise (· ≠ ·)) ∧
    (compute_lagrange_polynomial [((0 : ℚ), (1 / 3 : ℚ))]).isSome = true ∧
    polyEval ((compute_lagrange_polynomial [((0 : ℚ), (1 / 3 : ℚ))]).getD []) 0
      ≠ 1 / 3 := by
  refine ⟨?_, ?_, ?_⟩ <;> with_unfolding_all decide

/-- C1 amended: for every point set of at least two pairwise-distinct
rational abscissas the symbolic builder `compute_lagrange_polynomial`
succeeds, and evaluating the produced polynomial at each input abscissa
`x_i` returns exactly the corresponding `y_i` (for a singleton set the built
constant is instead the binary64 float of `y_0`, exact only when `y_0` is
binary64-representable — see C5). -/
theorem C1_interpolant_passes_through_points (points : List (ℚ × ℚ))
    (h2 : 2 ≤ points.length)
    (hd : (points.map Prod.fst).Pairwise (· ≠ ·)) :
    ∃ p, compute_lagrange_polynomial points = some p ∧
      ∀ pr ∈ points, polyEval p pr.1 = pr.2 :=
  ⟨polyTrim (lagrangeSumPoly points),
    compute_lagrange_polynomial_eq_some points hd,
    compute_lagrange_polynomial_eval_mem points _ h2 hd
      (compute_lagrange_polynomial_eq_some points hd)⟩

/-- Witness for the amended C1 at the concrete point set [(0,1),(1,2),(2,5)]. -/
theorem C1_interpolant_passes_through_points_witness :
    2 ≤ ([((0 : ℚ), (1 : ℚ)), (1, 2), (2, 5)] : List (ℚ × ℚ)).length ∧
    (([((0 : ℚ), (1 : ℚ)), (1, 2), (2, 5)].map Prod.fst).Pairwise (· ≠ ·)) ∧
    ∃ p, compute_lagrange_polynomial [((0 : ℚ), (1 : ℚ)), (1, 2), (2, 5)] = some p ∧
      ∀ pr ∈ [((0 : ℚ), (1 : ℚ)), (1, 2), (2, 5)], polyEval p pr.1 = pr.2 :=
  ⟨by decide, by with_unfolding_all decide,
    C1_interpolant_passes_through_points _ (by decide)
      (by with_unfolding_all decide)⟩

/-- C5 counterexample: for the single point (0, 1/3) the builder does not
produce the exact constant 1/3: the returned constant is the binary64 float
6004799503160661/2^54 of 1/3, because Python evaluates
`(1/1) * Fraction(1,3)` with `1/1` the FLOAT `1.0` and float·Fraction falls
back to float arithmetic. -/
theorem C5_counterexample_single_point_rounds :
    compute_lagrange_polynomial [((0 : ℚ), (1 / 3 : ℚ))] ≠ some [(1 / 3 : ℚ)] ∧
    (compute_lagrange_polynomial [((0 : ℚ), (1 / 3 : ℚ))]).isSome = true ∧
    (polyCoeff ((compute_lagrange_polynomial [((0 : ℚ), (1 / 3 : ℚ))]).getD []) 0).num
      = 6004799503160661 ∧
    (polyCoeff ((compute_lagrange_polynomial [((0 : ℚ), (1 / 3 : ℚ))]).getD []) 0).den
      = 18014398509481984 := by
  refine ⟨?_, ?_, ?_, ?_⟩ <;> with_unfolding_all decide

/-- C5 amended: a point set consisting of the single point `(x0, y0)` yields
a degree-0 constant polynomial whose constant is the binary64 float of `y0`
(`round64 y0` — Python computes `(1/1) * y0` in float arithmetic), and whose
evaluation at every rational `x` equals that float constant; it equals `y0`
itself exactly when `y0` is binary64-representable. -/
theorem C5_single_point_constant_polynomial (x0 y0 : ℚ) :
    ∃ p, compute_lagrange_polynomial [(x0, y0)] = some p ∧
      (∀ k, polyCoeff p k = if k = 0 then round64 y0 else 0) ∧
      ∀ x, polyEval p x = round64 y0 := by
  have hd : (([(x0, y0)].map Prod.fst)).Pairwise (· ≠ ·) := by
    simp
  have hr1 : List.range 1 = [0] := rfl
  have hsum : lagrangeSumPoly [(x0, y0)] = [round64 y0] := by
    simp [lagrangeSumPoly, polyAdd, hr1, List.filter_cons, List.filter_nil]
  refine ⟨polyTrim (lagrangeSumPoly [(x0, y0)]),
    compute_lagrange_polynomial_eq_some _ hd, ?_, ?_⟩
  · intro k
    rw [polyCoeff_polyTrim, hsum]
    by_cases hy : round64 y0 = 0
    · cases k with
      | zero => simp [polyCoeff, hy]
      | succ k => simp [polyCoeff, hy]
    · cases k with
      | zero => simp [polyCoeff]
      | succ k => simp [polyCoeff]
  · intro x
    rw [polyEval_polyTrim, hsum]
    simp [polyEval]

/-! ### Degree bounds and uniqueness: permutation invariance of the builder -/

theorem length_filter_ne_range (n i : ℕ) (hi : i < n) :
    ((List.range n).filter (fun j => j ≠ i)).length = n - 1 := by
  induction n with
  | zero => omega
  | succ n ih =>
    rw [List.range_succ, List.filter_append, List.length_append]
    by_cases hin : i = n
    · subst hin
      have hkeep : (List.range i).filter (fun j => j ≠ i) = List.range i := by
        refine List.filter_eq_self.mpr ?_
        intro a ha
        simpa using Nat.ne_of_lt (List.mem_range.mp ha)
      rw [hkeep]
      simp [List.filter_cons]
    · have hi' : i < n := by omega
      rw [ih hi']
      have hne : n ≠ i := fun h => hin h.symm
      simp [List.filter_cons, hne]
      omega

theorem polyAdd_length (p q : PolyQ) :
    (polyAdd p q).length = max p.length q.length := by
  induction p generalizing q with
  | nil => simp [polyAdd]
  | cons a p ih =>
    cases q with
    | nil => simp [polyAdd]
    | cons b q => simp [polyAdd, ih]; omega

theorem polyMulLin_length (r : ℚ) (p : PolyQ) :
    (polyMulLin r p).length = p.length + 1 := by
  unfold polyMulLin polyScale
  rw [polyAdd_length]
  simp

theorem foldl_polyMulLin_length (l : List ℕ) (xs : List ℚ) :
    ∀ p : PolyQ, (l.foldl (fun acc j => polyMulLin (xs.getD j 0) acc) p).length
      = p.length + l.length := by
  induction l with
  | nil => intro p; simp
  | cons j l ih =>
    intro p
    simp only [List.foldl_cons]
    rw [ih (polyMulLin (xs.getD j 0) p), polyMulLin_length]
    simp
    omega

theorem lagrangeNumer_length (xs : List ℚ) (i : ℕ) (hi : i < xs.length) :
    (lagrangeNumer xs i).length = xs.length := by
  unfold lagrangeNumer
  rw [foldl_polyMulLin_length, length_filter_ne_range _ _ hi]
  simp
  omega

theorem foldl_polyAdd_length_le (f : ℕ → PolyQ) (n : ℕ) :
    ∀ (l : List ℕ) (acc : PolyQ), (∀ i ∈ l, (f i).length ≤ n) → acc.length ≤ n →
      (l.foldl (fun a i => polyAdd a (f i)) acc).length ≤ n := by
  intro l
  induction l with
  | nil => intro acc _ hacc; simpa
  | cons i l ih =>
    intro acc hf hacc
    simp only [List.foldl_cons]
    refine ih _ (fun j hj => hf j (List.mem_cons_of_mem _ hj)) ?_
    rw [polyAdd_length]
    exact max_le hacc (hf i (by simp))

theorem lagrangeSumPoly_length_le (points : List (ℚ × ℚ)) :
    (lagrangeSumPoly points).length ≤ points.length := by
  unfold lagrangeSumPoly
  refine foldl_polyAdd_length_le _ _ _ _ ?_ (by simp)
  intro i hi
  have hi' : i < points.length := List.mem_range.mp hi
  by_cases hc : ((List.range points.length).filter (fun j => j ≠ i)) = []
  · rw [if_pos hc]
    simp
    omega
  · rw [if_neg hc]
    unfold polyScale
    rw [List.length_map, lagrangeNumer_length]
    · simp
    · rw [List.length_map]
      exact hi' 

theorem polyTrim_length_le (p : PolyQ) : (polyTrim p).length ≤ p.length := by
  induction p with
  | nil => simp [polyTrim]
  | cons a p ih =>
    unfold polyTrim
    cases htp : polyTrim p with
    | nil =>
      by_cases ha : a = 0 <;> simp [ha]
    | cons b q =>
      rw [htp] at ih
      simpa using ih

/-- Reinterpretation of a coefficient list as a Mathlib polynomial, used only
to borrow the uniqueness theory of interpolating polynomials. -/
noncomputable def toPolynomial : PolyQ → Polynomial ℚ
  | [] => 0
  | a :: p => Polynomial.C a + Polynomial.X * toPolynomial p

theorem toPolynomial_eval (p : PolyQ) (x : ℚ) :
    (toPolynomial p).eval x = polyEval p x := by
  induction p with
  | nil => simp [toPolynomial, polyEval]
  | cons a p ih => simp [toPolynomial, polyEval, ih]

theorem toPolynomial_coeff (p : PolyQ) (k : ℕ) :
    (toPolynomial p).coeff k = polyCoeff p k := by
  induction p generalizing k with
  | nil => simp [toPolynomial, polyCoeff]
  | cons a p ih =>
    cases k with
    | zero => simp [toPolynomial, polyCoeff, Polynomial.coeff_add, Polynomial.mul_coeff_zero]
    | succ k =>
      simp [toPolynomial, polyCoeff, Polynomial.coeff_add, Polynomial.coeff_X_mul,
        Polynomial.coeff_C, ih]

theorem polyCoeff_eq_zero_of_le (p : PolyQ) (k : ℕ) (h : p.length ≤ k) :
    polyCoeff p k = 0 := by
  simp [polyCoeff, List.getElem?_eq_none h]

theorem toPolynomial_degree_lt (p : PolyQ) :
    (toPolynomial p).degree < (p.length : ℕ) := by
  refine (Polynomial.degree_lt_iff_coeff_zero _ _).mpr ?_
  intro m hm
  rw [toPolynomial_coeff]
  exact polyCoeff_eq_zero_of_le p m hm

theorem toPolynomial_degree_lt_of_le (p : PolyQ) (n : ℕ) (h : p.length ≤ n) :
    (toPolynomial p).degree < (n : ℕ) := by
  refine (Polynomial.degree_lt_iff_coeff_zero _ _).mpr ?_
  intro m hm
  rw [toPolynomial_coeff]
  exact polyCoeff_eq_zero_of_le p m (le_trans h hm)

/-- C4: the symbolic builder is invariant under permutation of its input
point list: for every point set of pairwise-distinct abscissas and every
permutation of it, `compute_lagrange_polynomial` returns the same canonical
polynomial (in particular the same exponent-to-coefficient mapping). -/
theorem C4_builder_permutation_invariant (points points' : List (ℚ × ℚ))
    (hperm : points.Perm points')
    (hd : (points.map Prod.fst).Pairwise (· ≠ ·)) :
    compute_lagrange_polynomial points' = compute_lagrange_polynomial points := by
  rcases Nat.lt_or_ge points.length 2 with hlen1 | h2
  · -- with fewer than two points the only permutation is the list itself
    have hpp : points' = points := by
      cases points with
      | nil => exact List.perm_nil.mp hperm.symm
      | cons a t =>
        cases t with
        | nil => exact List.perm_singleton.mp hperm.symm
        | cons b t2 =>
          simp at hlen1
          omega
    rw [hpp]
  have h2' : 2 ≤ points'.length := by
    rw [← hperm.length_eq]
    exact h2
  have hmapperm : (points.map Prod.fst).Perm (points'.map Prod.fst) :=
    hperm.map Prod.fst
  have hd' : (points'.map Prod.fst).Pairwise (· ≠ ·) :=
    (List.Perm.pairwise_iff (fun h => Ne.symm h) hmapperm).mp hd
  have hp : compute_lagrange_polynomial points
      = some (polyTrim (lagrangeSumPoly points)) :=
    compute_lagrange_polynomial_eq_some points hd
  have hq : compute_lagrange_polynomial points'
      = some (polyTrim (lagrangeSumPoly points')) :=
    compute_lagrange_polynomial_eq_some points' hd'
  have hevp := compute_lagrange_polynomial_eval_mem points _ h2 hd hp
  have hevq := compute_lagrange_polynomial_eval_mem points' _ h2' hd' hq
  have hnodup : (points.map Prod.fst).Nodup := hd
  have hcard : (points.map Prod.fst).toFinset.card = points.length := by
    rw [List.toFinset_card_of_nodup hnodup, List.length_map]
  have hdegp : (toPolynomial (polyTrim (lagrangeSumPoly points))).degree
      < ((points.map Prod.fst).toFinset.card : ℕ) := by
    rw [hcard]
    exact toPolynomial_degree_lt_of_le _ _
      (le_trans (polyTrim_length_le _) (lagrangeSumPoly_length_le _))
  have hdegq : (toPolynomial (polyTrim (lagrangeSumPoly points'))).degree
      < ((points.map Prod.fst).toFinset.card : ℕ) := by
    rw [hcard, hperm.length_eq]
    exact toPolynomial_degree_lt_of_le _ _
      (le_trans (polyTrim_length_le _) (lagrangeSumPoly_length_le _))
  have heval : ∀ x ∈ (points.map Prod.fst).toFinset,
      (toPolynomial (polyTrim (lagrangeSumPoly points))).eval x
        = (toPolynomial (polyTrim (lagrangeSumPoly points'))).eval x := by
    intro x hx
    obtain ⟨pr, hpr, hprx⟩ := List.mem_map.mp (List.mem_toFinset.mp hx)
    rw [toPolynomial_eval, toPolynomial_eval, ← hprx,
      hevp pr hpr, hevq pr (hperm.subset hpr)]
  have hPQ : toPolynomial (polyTrim (lagrangeSumPoly points))
      = toPolynomial (polyTrim (lagrangeSumPoly points')) :=
    Polynomial.eq_of_degrees_lt_of_eval_finset_eq _ hdegp hdegq heval
  have hcoeff : ∀ k, polyCoeff (polyTrim (lagrangeSumPoly points')) k
      = polyCoeff (polyTrim (lagrangeSumPoly points)) k := by
    intro k
    rw [← toPolynomial_coeff, ← toPolynomial_coeff, hPQ]
  have hqp : polyTrim (lagrangeSumPoly points') = polyTrim (lagrangeSumPoly points) :=
    polyCanon_ext _ _ (polyCanon_polyTrim _) (polyCanon_polyTrim _) hcoeff
  rw [hp, hq, hqp]

/-- Witness for C4: swapping the two points of [(0,1),(1,2)] leaves the
canonical polynomial unchanged. -/
theorem C4_builder_permutation_invariant_witness :
    ([((0 : ℚ), (1 : ℚ)), (1, 2)].Perm [((1 : ℚ), (2 : ℚ)), (0, 1)]) ∧
    (([((0 : ℚ), (1 : ℚ)), (1, 2)].map Prod.fst).Pairwise (· ≠ ·)) ∧
    compute_lagrange_polynomial [((1 : ℚ), (2 : ℚ)), (0, 1)]
      = compute_lagrange_polynomial [((0 : ℚ), (1 : ℚ)), (1, 2)] :=
  ⟨List.Perm.swap _ _ _, by with_unfolding_all decide,
    C4_builder_permutation_invariant _ _ (List.Perm.swap _ _ _)
      (by with_unfolding_all decide)⟩

/-! ### Text parsing for the symbolic pipeline -/

/-- Value of an ASCII digit character. -/
def digitVal (c : Char) : Option ℕ :=
  if c.isDigit then some (c.toNat - 48) else none

/-- Greedy run of leading digits and the remaining characters. -/
def takeDigits : List Char → (List ℕ × List Char)
  | c :: r =>
    match digitVal c with
    | some v =>
      let p := takeDigits r
      (v :: p.1, p.2)
    | none => ([], c :: r)
  | [] => ([], [])

/-- Decimal value of a digit run. -/
def digitsToNat (ds : List ℕ) : ℕ := ds.foldl (fun a d => 10 * a + d) 0

/-- Model of `fractions.Fraction(str)` parsing, restricted to the textual
forms the theorems below exercise: an optional sign, then digits, optionally
followed by `/digits` (nonzero denominator) or by `.digits`.  The stdlib
parser additionally accepts surrounding whitespace, a bare leading `.` and
scientific notation, which no theorem below needs; `Fraction("a/0")` raises
`ZeroDivisionError` in Python and is mapped to `none` (no theorem below
depends on that input). -/
def parseFractionChars (cs : List Char) : Option ℚ :=
  let sp : ℤ × List Char :=
    match cs with
    | '-' :: r => (-1, r)
    | '+' :: r => (1, r)
    | r => (1, r)
  match takeDigits sp.2 with
  | ([], _) => none
  | (ds, rest) =>
    match rest with
    | [] => some ((sp.1 : ℚ) * digitsToNat ds)
    | '/' :: r2 =>
      match takeDigits r2 with
      | (ds2, []) =>
        if ds2 = [] ∨ digitsToNat ds2 = 0 then none
        else some ((sp.1 : ℚ) * digitsToNat ds / digitsToNat ds2)
      | _ => none
    | '.' :: r2 =>
      match takeDigits r2 with
      | (ds2, []) =>
        some ((sp.1 : ℚ) * (digitsToNat ds + (digitsToNat ds2 : ℚ) / 10 ^ ds2.length))
      | _ => none
    | _ => none

/-- String wrapper for `parseFractionChars`. -/
def parse_fraction (s : String) : Option ℚ := parseFractionChars s.data

/-- Embedding of `ForexLagrangeApp.get_points` (src/main.py lines 174-186):
each text pair is parsed with `Fraction`; a parse failure (`ValueError`)
makes the method show an error box and return `None`, modelled by `none`.
Note that this is the whole of the validation: no duplicate-abscissa or
emptiness check is performed. -/
def get_points (entries : List (String × String)) : Option (List (ℚ × ℚ)) :=
  entries.mapM (fun e =>
    (parse_fraction e.1).bind fun x =>
      (parse_fraction e.2).map fun y => (x, y))

/-- Binary64 addition: the exact sum, rounded by the runtime's rounding
function `rnd`. -/
def fadd (rnd : ℚ → ℚ) (a b : ℚ) : ℚ := rnd (a + b)

/-- Binary64 multiplication: the exact product, rounded. -/
def fmul (rnd : ℚ → ℚ) (a b : ℚ) : ℚ := rnd (a * b)

/-- Binary64 division: the exact quotient, rounded. -/
def fdiv (rnd : ℚ → ℚ) (a b : ℚ) : ℚ := rnd (a / b)

/-- Faithful-rounding properties of IEEE-754 round-to-nearest binary64 in
the normal range: relative error at most `2⁻⁵³` and idempotence.  The
floating-point theorems below hold for EVERY `rnd` with these properties,
hence in particular for the runtime's actual rounding. -/
def Rounding (rnd : ℚ → ℚ) : Prop :=
  (∀ q : ℚ, |rnd q - q| ≤ |q| / 2 ^ 53) ∧ (∀ q : ℚ, rnd (rnd q) = rnd q)

/-- Model of `float(str)` (src/main.py line 162): the decimal literal's exact
value, rounded to binary64.  Restricted to an optional sign, digits and an
optional fractional part; the stdlib also accepts exponents, `inf`/`nan` and
underscores, which no theorem below needs. -/
def float_of_string (s : String) : Option ℚ :=
  (match s.data with
    | c :: r =>
      match c with
      | '-' => (takeDigitsValue r).map Neg.neg
      | '+' => takeDigitsValue r
      | _ => takeDigitsValue s.data
    | [] => none)
where
  /-- Unsigned decimal: digits with optional `.digits`, rounded to binary64. -/
  takeDigitsValue (cs : List Char) : Option ℚ :=
    match takeDigits cs with
    | ([], _) => none
    | (ds, []) => some (round64 (digitsToNat ds))
    | (ds, '.' :: r2) =>
      match takeDigits r2 with
      | (ds2, []) =>
        some (round64 (digitsToNat ds + (digitsToNat ds2 : ℚ) / 10 ^ ds2.length))
      | _ => none
    | _ => none

/-- Iterated float power: sympy evaluates `x**k` for a `Float` base in
53-bit mpmath arithmetic, modelled as repeated rounded multiplication.
(mpmath may perform an integer power with fewer intermediate roundings; the
two agree whenever the intermediate powers are representable, which holds in
every concrete instance a theorem below evaluates.) -/
def fpow (rnd : ℚ → ℚ) (x : ℚ) : ℕ → ℚ
  | 0 => 1
  | k + 1 => fmul rnd (fpow rnd x k) x

/-- Model of sympy's substitution `lagrange_poly.subs({'x': x_val})`
(src/main.py line 168) of a binary64 value into the canonical polynomial:
every operation is 53-bit float arithmetic — the power of x is rounded, the
rational coefficient is rounded when mixed into a float product, and every
multiplication and addition rounds its exact result.  sympy's canonical form
omits zero-coefficient terms; including them contributes exact-zero terms
and re-rounds an already-rounded partial sum, which leaves every value
unchanged for the idempotent roundings considered here. -/
def subsFloat (rnd : ℚ → ℚ) (p : PolyQ) (x : ℚ) : ℚ :=
  (List.range p.length).foldl
    (fun s k => fadd rnd s (fmul rnd (rnd (polyCoeff p k)) (fpow rnd x k))) 0

/-- Embedding of `ForexLagrangeApp.interpolate_lagrange` (src/main.py lines
161-172): parses the x entry with `float` (a binary64 value!), collects the
points, builds the polynomial and substitutes the parsed x in 53-bit float
arithmetic (`subsFloat` with the binary64 rounding `round64`).  `none`
collects every path that produces no numeric result: an uncaught
`ValueError` from `float`, `get_points` returning `None`, an empty point
list (early return), and a duplicate abscissa making the sympy expression
non-numeric. -/
def interpolate_lagrange (xEntry : String) (entries : List (String × String)) :
    Option ℚ :=
  match float_of_string xEntry with
  | none => none
  | some xv =>
    match get_points entries with
    | none => none
    | some points =>
      if points = [] then none
      else (compute_lagrange_polynomial points).map fun p => subsFloat round64 p xv

/-! ### Claims C2, C3 and C6 -/

/-- C2 counterexample: on the duplicate-abscissa input [(0,1),(0,2)] the
pipeline produces no `DuplicateAbscissa` failure: `get_points` accepts the
points without any distinctness validation (its only failure mode is the
parse-error box), and the symbolic builder then yields no result at all (the
sympy expression is non-numeric after the division by the zero denominator),
so neither a tagged failure nor a numeric result is returned. -/
theorem C2_counterexample_duplicate_not_flagged :
    get_points [(("0"), ("1")), (("0"), ("2"))] = some [(0, 1), (0, 2)] ∧
    compute_lagrange_polynomial [((0 : ℚ), (1 : ℚ)), (0, 2)] = none ∧
    interpolate_lagrange ("1") [(("0"), ("1")), (("0"), ("2"))] = none := by
  refine ⟨?_, ?_, ?_⟩ <;> with_unfolding_all decide

/-- C2 amended: a point set containing two points with equal x-values is not
rejected with a tagged `DuplicateAbscissa` failure — no such validation
exists; instead the symbolic builder produces no polynomial at all (sympy's
division by the zero Lagrange denominator makes the expression non-numeric),
so no numeric result is returned either. -/
theorem C2_amended_duplicate_abscissa_yields_no_polynomial
    (points : List (ℚ × ℚ)) (i j : ℕ)
    (hi : i < points.length) (hj : j < points.length) (hij : i ≠ j)
    (heq : (points.map Prod.fst).getD i 0 = (points.map Prod.fst).getD j 0) :
    compute_lagrange_polynomial points = none := by
  unfold compute_lagrange_polynomial
  have hc : ¬(((List.range points.length).all fun i =>
      lagrangeDenom (points.map Prod.fst) i != 0) = true) := by
    intro hall
    rw [List.all_eq_true] at hall
    have hne : lagrangeDenom (points.map Prod.fst) i ≠ 0 := by
      simpa using hall i (List.mem_range.mpr hi)
    apply hne
    rw [lagrangeDenom_eq_prod]
    apply List.prod_eq_zero
    refine List.mem_map.mpr ⟨j, List.mem_filter.mpr ⟨List.mem_range.mpr ?_, ?_⟩, ?_⟩
    · rw [List.length_map]
      exact hj
    · simpa using fun h => hij h.symm
    · rw [heq, sub_self]
  rw [if_neg hc]

/-- Witness for the amended C2 at the concrete duplicate input. -/
theorem C2_amended_duplicate_abscissa_yields_no_polynomial_witness :
    0 < ([((0 : ℚ), (1 : ℚ)), (0, 2)] : List (ℚ × ℚ)).length ∧
    1 < ([((0 : ℚ), (1 : ℚ)), (0, 2)] : List (ℚ × ℚ)).length ∧
    (0 : ℕ) ≠ 1 ∧
    (([((0 : ℚ), (1 : ℚ)), (0, 2)].map Prod.fst).getD 0 0
      = ([((0 : ℚ), (1 : ℚ)), (0, 2)].map Prod.fst).getD 1 0) ∧
    compute_lagrange_polynomial [((0 : ℚ), (1 : ℚ)), (0, 2)] = none :=
  ⟨by decide, by decide, by decide, by with_unfolding_all decide,
    C2_amended_duplicate_abscissa_yields_no_polynomial _ 0 1
      (by decide) (by decide) (by decide) (by with_unfolding_all decide)⟩

/-- C3 counterexample: the claimed output x² + x + 1 (coefficient list
[1,1,1]) is wrong — x² + x + 1 evaluates to 3 at x = 1, so it does not even
pass through the input point (1,2) — and evaluating what the builder actually
returns at x = 3 does not give 13. -/
theorem C3_counterexample_not_x_sq_plus_x_plus_one :
    compute_lagrange_polynomial [((0 : ℚ), (1 : ℚ)), (1, 2), (2, 5)]
      ≠ some [1, 1, 1] ∧
    polyEval [1, 1, 1] 1 ≠ 2 ∧
    interpolate_lagrange ("3") [(("0"), ("1")), (("1"), ("2")), (("2"), ("5"))]
      ≠ some 13 := by
  refine ⟨?_, ?_, ?_⟩ <;> with_unfolding_all decide

/-- C3 amended: for the input points (0,1), (1,2), (2,5) the symbolic builder
produces exactly the canonical polynomial x² + 1 (coefficient list [1,0,1]),
and evaluating that polynomial at x = 3 — also through the GUI pipeline,
whose float parse of "3" is exact — returns 10. -/
theorem C3_amended_example_polynomial_x_sq_plus_one :
    compute_lagrange_polynomial [((0 : ℚ), (1 : ℚ)), (1, 2), (2, 5)]
      = some [1, 0, 1] ∧
    polyEval [1, 0, 1] 3 = 10 ∧
    interpolate_lagrange ("3") [(("0"), ("1")), (("1"), ("2")), (("2"), ("5"))]
      = some 10 := by
  refine ⟨?_, ?_, ?_⟩ <;> with_unfolding_all decide

/-- The exact mathematical evaluation of a coefficient list is the monomial
sum Σ_k coefficient_k · x^k (the spec's PolynomialEvaluator contract, the
reference value for the float evaluation below). -/
theorem polyEval_eq_sum_range (p : PolyQ) (x : ℚ) :
    polyEval p x = ∑ k ∈ Finset.range p.length, polyCoeff p k * x ^ k := by
  induction p with
  | nil => simp [polyEval]
  | cons a q ih =>
    rw [polyEval, ih, List.length_cons, Finset.sum_range_succ']
    have hs : ∀ k, polyCoeff (a :: q) (k + 1) = polyCoeff q k := by
      intro k
      simp [polyCoeff]
    have h0 : polyCoeff (a :: q) 0 * x ^ 0 = a := by simp [polyCoeff]
    simp only [hs, h0, pow_succ]
    have hms : ∑ k ∈ Finset.range q.length, polyCoeff q k * (x ^ k * x)
        = x * ∑ k ∈ Finset.range q.length, polyCoeff q k * x ^ k := by
      rw [Finset.mul_sum]
      exact Finset.sum_congr rfl (fun k _ => by ring)
    rw [hms]
    ring

/-- Per-value fixed-point condition for the float evaluation of `p` at `x`:
the rounding leaves every intermediate value unchanged, i.e. each power of
`x`, each coefficient, each term and each partial sum is
binary64-representable. -/
def FixesEval (rnd : ℚ → ℚ) (p : PolyQ) (x : ℚ) : Prop :=
  (∀ k, k < p.length → rnd (x ^ k) = x ^ k) ∧
  (∀ k, k < p.length → rnd (polyCoeff p k) = polyCoeff p k) ∧
  (∀ k, k < p.length → rnd (polyCoeff p k * x ^ k) = polyCoeff p k * x ^ k) ∧
  (∀ k, k ≤ p.length →
    rnd (∑ j ∈ Finset.range k, polyCoeff p j * x ^ j)
      = ∑ j ∈ Finset.range k, polyCoeff p j * x ^ j)

instance FixesEval.decidable (rnd : ℚ → ℚ) (p : PolyQ) (x : ℚ) :
    Decidable (FixesEval rnd p x) := by
  unfold FixesEval
  exact inferInstance

/-- C6 amended: polynomial evaluation in the pipeline is binary64
floating-point throughout — the x entry is parsed to its binary64 value and
every operation of the substitution rounds its exact result — so the
returned value is the exact rational Σ_k coefficient_k · x^k of the
substituted value precisely in the representable regime: whenever the
rounding fixes every intermediate value, the float evaluation coincides with
the exact monomial sum (and in general it differs, see the counterexample). -/
theorem C6_amended_subs_exact_when_representable (rnd : ℚ → ℚ) (p : PolyQ)
    (x : ℚ) (hfix : FixesEval rnd p x) :
    subsFloat rnd p x = ∑ k ∈ Finset.range p.length, polyCoeff p k * x ^ k := by
  obtain ⟨hpw, hc, ht, hs⟩ := hfix
  have hfpow : ∀ k, k < p.length → fpow rnd x k = x ^ k := by
    intro k
    induction k with
    | zero =>
      intro _
      simp [fpow]
    | succ k ih =>
      intro hk
      show fmul rnd (fpow rnd x k) x = x ^ (k + 1)
      rw [ih (by omega)]
      unfold fmul
      rw [← pow_succ]
      exact hpw (k + 1) hk
  suffices hgen : ∀ n, n ≤ p.length →
      (List.range n).foldl
        (fun s k => fadd rnd s (fmul rnd (rnd (polyCoeff p k)) (fpow rnd x k))) 0
        = ∑ k ∈ Finset.range n, polyCoeff p k * x ^ k by
    exact hgen p.length le_rfl
  intro n
  induction n with
  | zero =>
    intro _
    simp
  | succ n ih =>
    intro hn
    rw [List.range_succ, List.foldl_append, ih (by omega)]
    simp only [List.foldl_cons, List.foldl_nil]
    have hterm : fmul rnd (rnd (polyCoeff p n)) (fpow rnd x n)
        = polyCoeff p n * x ^ n := by
      rw [hfpow n (by omega), hc n (by omega)]
      unfold fmul
      exact ht n (by omega)
    rw [hterm]
    unfold fadd
    rw [← Finset.sum_range_succ]
    exact hs (n + 1) hn

/-- Witness for the amended C6: with the binary64 rounding `round64`, the
polynomial x² + 1 at the representable value 3 — every intermediate (1, 3,
9, 10) is a binary64 integer — evaluates exactly to the monomial sum. -/
theorem C6_amended_subs_exact_when_representable_witness :
    FixesEval round64 [(1 : ℚ), 0, 1] 3 ∧
    subsFloat round64 [(1 : ℚ), 0, 1] 3
      = ∑ k ∈ Finset.range ([(1 : ℚ), 0, 1] : PolyQ).length,
          polyCoeff [(1 : ℚ), 0, 1] k * 3 ^ k :=
  ⟨by with_unfolding_all decide,
    C6_amended_subs_exact_when_representable round64 [(1 : ℚ), 0, 1] 3
      (by with_unfolding_all decide)⟩

/-- C6 counterexample, refuting exactness at both rounding sites.
Float parse: on the points (0,0),(1,1) the builder returns the identity
polynomial x, and the claim predicts that evaluating at the rational 1/10
(entered as "0.1") returns exactly 1/10; the pipeline returns the binary64
neighbour 3602879701896397/2^55, because `float("0.1")` rounds.
Substitution arithmetic: on the points (0,0),(3,1) the builder returns x/3
and the entry "1" is exactly representable, yet the result is not 1/3 but
its binary64 neighbour 6004799503160661/2^54 (0.3333333333333333): sympy's
`subs` rounds the coefficient arithmetic at 53 bits. -/
theorem C6_counterexample_float_evaluation_not_exact :
    interpolate_lagrange ("0.1") [(("0"), ("0")), (("1"), ("1"))]
      ≠ some (1 / 10) ∧
    (interpolate_lagrange ("0.1") [(("0"), ("0")), (("1"), ("1"))]).isSome
      = true ∧
    ((interpolate_lagrange ("0.1") [(("0"), ("0")), (("1"), ("1"))]).getD 0).num
      = 3602879701896397 ∧
    ((interpolate_lagrange ("0.1") [(("0"), ("0")), (("1"), ("1"))]).getD 0).den
      = 36028797018963968 ∧
    interpolate_lagrange ("1") [(("0"), ("0")), (("3"), ("1"))]
      ≠ some (1 / 3) ∧
    (interpolate_lagrange ("1") [(("0"), ("0")), (("3"), ("1"))]).isSome
      = true ∧
    ((interpolate_lagrange ("1") [(("0"), ("0")), (("3"), ("1"))]).getD 0).num
      = 6004799503160661 ∧
    ((interpolate_lagrange ("1") [(("0"), ("0")), (("3"), ("1"))]).getD 0).den
      = 18014398509481984 := by
  refine ⟨?_, ?_, ?_, ?_, ?_, ?_, ?_, ?_⟩ <;> with_unfolding_all decide

/-! ### Calendar dates (`ForexData.date_to_num`) -/

/-- Calendar date (year, month, day). -/
structure Date where
  y : ℕ
  m : ℕ
  d : ℕ
deriving DecidableEq

/-- Gregorian leap-year rule, as used by Python's `datetime`. -/
def isLeap (y : ℕ) : Bool := y % 4 == 0 && (y % 100 != 0 || y % 400 == 0)

/-- Days in month `m` of a year with leap flag `L`. -/
def daysInMonthL (L : Bool) (m : ℕ) : ℕ :=
  match m with
  | 1 => 31
  | 2 => if L then 29 else 28
  | 3 => 31
  | 4 => 30
  | 5 => 31
  | 6 => 30
  | 7 => 31
  | 8 => 31
  | 9 => 30
  | 10 => 31
  | 11 => 30
  | 12 => 31
  | _ => 0

/-- Days in month `m` of year `y` (`datetime._days_in_month`). -/
def daysInMonth (y m : ℕ) : ℕ := daysInMonthL (isLeap y) m

/-- Days before month `m` in a year with leap flag `L`
(`datetime._days_before_month`). -/
def daysBeforeMonth (L : Bool) (m : ℕ) : ℕ :=
  ((List.range' 1 (m - 1)).map (daysInMonthL L)).sum

/-- Days before year `y` (`datetime._days_before_year`):
`(y-1)*365 + (y-1)//4 - (y-1)//100 + (y-1)//400`. -/
def daysBeforeYear (y : ℕ) : ℤ :=
  ((365 * (y - 1) + (y - 1) / 4 + (y - 1) / 400 : ℕ) : ℤ) - (((y - 1) / 100 : ℕ) : ℤ)

/-- Proleptic-Gregorian ordinal of a date (`datetime.date.toordinal`). -/
def toordinal (a : Date) : ℤ :=
  daysBeforeYear a.y + (daysBeforeMonth (isLeap a.y) a.m : ℤ) + (a.d : ℤ)

/-- Embedding of `ForexData.date_to_num` (src/main.py lines 37-43) on an
already-parsed date: the signed day offset from the reference date
2002-01-01, computed in Python as the difference of the two datetimes. -/
def date_to_num (a : Date) : ℤ := toordinal a - toordinal ⟨2002, 1, 1⟩

/-- Calendar dates that `datetime` accepts (year within MINYEAR..MAXYEAR,
month 1..12, day within the month). -/
def validDate (a : Date) : Prop :=
  1 ≤ a.y ∧ a.y ≤ 9999 ∧ 1 ≤ a.m ∧ a.m ≤ 12 ∧ 1 ≤ a.d ∧ a.d ≤ daysInMonth a.y a.m

instance validDate.decidable (a : Date) : Decidable (validDate a) := by
  unfold validDate
  exact inferInstance

/-- Calendar (lexicographic) order on dates. -/
def calLt (a b : Date) : Prop :=
  a.y < b.y ∨ (a.y = b.y ∧ (a.m < b.m ∨ (a.m = b.m ∧ a.d < b.d)))

instance calLt.decidable (a b : Date) : Decidable (calLt a b) := by
  unfold calLt
  exact inferInstance

/-- Exactly four digits. -/
def parse4Digits : List Char → Option (ℕ × List Char)
  | a :: b :: c :: e :: r => do
    let va ← digitVal a
    let vb ← digitVal b
    let vc ← digitVal c
    let vd ← digitVal e
    some (1000 * va + 100 * vb + 10 * vc + vd, r)
  | _ => none

/-- One or two digits, greedily. -/
def parse12Digits : List Char → Option (ℕ × List Char)
  | a :: b :: r =>
    (digitVal a).bind fun va =>
      match digitVal b with
      | some vb => some (10 * va + vb, r)
      | none => some (va, b :: r)
  | [a] => (digitVal a).map fun va => (va, [])
  | [] => none

/-- A literal dash. -/
def expectDash : List Char → Option (List Char)
  | '-' :: r => some r
  | _ => none

/-- Model of `datetime.strptime(s, "%Y-%m-%d")` together with the calendar
validation the `datetime` constructor performs: four digit year, dash,
one-or-two digit month, dash, one-or-two digit day, end of input, and the
numbers must form a valid calendar date — otherwise Python raises
`ValueError`, modelled by `none`.  CPython's regex lets a two-digit
month/day backtrack to one digit, but the backtracked parse then fails on
the following separator anyway, so greedy matching plus the checks below
accepts the same strings.  (CPython's `\d` also matches non-ASCII decimal
digits; such exotic inputs parse in Python but map to `none` here — no
theorem depends on them.) -/
def strptime_ymd (s : String) : Option Date := do
  let p1 ← parse4Digits s.data
  let r2 ← expectDash p1.2
  let p3 ← parse12Digits r2
  let r4 ← expectDash p3.2
  let p5 ← parse12Digits r4
  if p5.2 = [] ∧ validDate ⟨p1.1, p3.1, p5.1⟩ then some ⟨p1.1, p3.1, p5.1⟩
  else none

/-- `ForexData.date_to_num` as the source applies it, to a raw string
(`strptime` first; its `ValueError` is modelled by `none`). -/
def date_to_num_str (s : String) : Option ℤ := (strptime_ymd s).map date_to_num

/-! ### The numeric (floating-point) Lagrange evaluator -/

/-- The `numerator` loop of `ForexData.lagrange_interpolation` for point `i`:
`x` and the `x_data` are integers (day offsets), so Python computes this
product in exact arbitrary-precision int arithmetic. -/
def intNumer (x_data : List ℤ) (x : ℤ) (i : ℕ) : ℤ :=
  ((List.range x_data.length).filter (fun j => j ≠ i)).foldl
    (fun a j => a * (x - x_data.getD j 0)) 1

/-- The `denominator` loop of `ForexData.lagrange_interpolation` for point
`i`, likewise exact integer arithmetic. -/
def intDenom (x_data : List ℤ) (i : ℕ) : ℤ :=
  ((List.range x_data.length).filter (fun j => j ≠ i)).foldl
    (fun a j => a * (x_data.getD i 0 - x_data.getD j 0)) 1

/-- Embedding of `ForexData.lagrange_interpolation` (src/main.py lines
21-35) as invoked on the date axis: `x`, `x_data` are integers, so
`numerator`/`denominator` are exact ints; `y_data` holds binary64 values and
the accumulation `result += y_data[i] * numerator / denominator` rounds
after the int-to-float conversions and after each float operation.  A zero
`denominator` makes Python raise an uncaught `ZeroDivisionError` (no value
is returned), modelled by `none`. -/
def lagrange_interpolation (rnd : ℚ → ℚ) (x : ℤ) (x_data : List ℤ)
    (y_data : List ℚ) : Option ℚ :=
  if ((List.range x_data.length).all fun i => intDenom x_data i != 0) then
    some ((List.range x_data.length).foldl
      (fun result i =>
        fadd rnd result
          (fdiv rnd (fmul rnd (y_data.getD i 0) (rnd (intNumer x_data x i : ℚ)))
            (rnd (intDenom x_data i : ℚ)))) 0)
  else none

/-! ### The embedded forex series (`ForexLagrangeApp.__init__`, lines 78-83) -/

/-- The 24 sample dates of the embedded series. -/
def forex_dates : List String :=
  ["2002-01-01", "2002-02-01", "2002-03-01", "2002-04-01", "2002-05-01",
   "2002-06-01", "2002-07-01", "2002-08-01", "2002-09-01", "2002-10-01",
   "2002-11-01", "2002-12-01", "2003-01-01", "2003-02-01", "2003-03-01",
   "2003-04-01", "2003-05-01", "2003-06-01", "2003-07-01", "2003-08-01",
   "2003-09-01", "2003-10-01", "2003-11-01", "2003-12-01"]

/-- Exact decimal values of the 24 rate literals in the source. -/
def forex_rates_exact : List ℚ :=
  [26.5850, 26.2703, 26.7617, 27.2878, 27.3863, 28.6447, 28.0576, 28.0241,
   28.5094, 29.0770, 29.9216, 30.1003, 31.1729, 32.1087, 32.8384, 32.1492,
   34.0153, 35.4584, 35.5996, 35.8302, 36.3606, 38.1060, 39.6118, 40.8515]

/-- The rate values as the Python runtime stores them: each decimal literal
rounded to binary64 by the runtime's rounding `rnd`. -/
def forex_rates (rnd : ℚ → ℚ) : List ℚ := forex_rates_exact.map rnd

/-- `self.date_values` as computed in `ForexData.__init__` (line 19).  In
Python an unparsable entry would raise; every entry of the embedded series
parses (`date_values_all_parse` below), so the `getD 0` totalisation is
never exercised. -/
def date_values : List ℤ :=
  forex_dates.map (fun s => (date_to_num_str s).getD 0)

theorem date_values_all_parse :
    ∀ s ∈ forex_dates, (date_to_num_str s).isSome = true := by
  decide

/-- Outcome of `ForexData.interpolate_exchange_rate`: the message carrying
the interpolated value (its 4-decimal string formatting is presentational),
or the invalid-date message. -/
inductive FxResult
  | rate (v : ℚ)
  | invalidDate
deriving DecidableEq

/-- Embedding of `ForexData.interpolate_exchange_rate` (src/main.py lines
45-53): `date_to_num` runs inside `try`, and its `ValueError` on a malformed
date is caught and turned into the invalid-format message; an exception
escaping `lagrange_interpolation` (a `ZeroDivisionError`) would not be
caught — that outcome is `none`. -/
def interpolate_exchange_rate (rnd : ℚ → ℚ) (target : String) : Option FxResult :=
  match date_to_num_str target with
  | none => some FxResult.invalidDate
  | some x =>
    (lagrange_interpolation rnd x date_values (forex_rates rnd)).map FxResult.rate

/-! ### Claim C8 -/

/-- C8 counterexample: invoked with an empty `x_data` the numeric evaluator
returns the number 0 (the loop never runs and the initial `result = 0` comes
back); it does not return a tagged `EmptyInput` failure — no such failure
value exists anywhere in the program. -/
theorem C8_counterexample_empty_input_returns_zero :
    lagrange_interpolation round64 5 [] [] = some 0 := rfl

/-- C8 amended: for every rounding, target and y-sequence, the numeric
Lagrange evaluator applied to an empty `x_data` returns the numeric value 0
(the empty sum), not a tagged `EmptyInput` failure. -/
theorem C8_amended_empty_input_returns_zero (rnd : ℚ → ℚ) (x : ℤ)
    (y_data : List ℚ) : lagrange_interpolation rnd x [] y_data = some 0 := rfl

/-! ### Claim C9: date_to_num is strictly order-preserving -/

theorem daysBeforeMonth_step :
    ∀ (L : Bool) (m : ℕ), m < 13 → 1 ≤ m →
      daysBeforeMonth L m + daysInMonthL L m = daysBeforeMonth L (m + 1) := by
  decide

theorem daysBeforeMonth_mono :
    ∀ (L : Bool) (m₁ : ℕ), m₁ < 14 → ∀ m₂ : ℕ, m₂ < 14 → m₁ ≤ m₂ →
      daysBeforeMonth L m₁ ≤ daysBeforeMonth L m₂ := by
  decide

theorem daysBeforeMonth_total :
    ∀ (L : Bool) (m : ℕ), m < 13 → 1 ≤ m →
      daysBeforeMonth L m + daysInMonthL L m ≤ (if L then 366 else 365) := by
  decide

theorem daysBeforeYear_succ (y : ℕ) (hy : 1 ≤ y) :
    daysBeforeYear (y + 1) = daysBeforeYear y + (if isLeap y then 366 else 365) := by
  obtain ⟨n, rfl⟩ : ∃ n, y = n + 1 := ⟨y - 1, by omega⟩
  unfold daysBeforeYear
  simp only [Nat.add_sub_cancel]
  by_cases hl : isLeap (n + 1)
  · rw [if_pos hl]
    unfold isLeap at hl
    simp only [Bool.and_eq_true, Bool.or_eq_true, beq_iff_eq, bne_iff_ne] at hl
    push_cast
    omega
  · rw [if_neg hl]
    unfold isLeap at hl
    simp only [Bool.and_eq_true, Bool.or_eq_true, beq_iff_eq, bne_iff_ne] at hl
    push_cast
    omega

theorem daysBeforeYear_mono (y₁ y₂ : ℕ) (h1 : 1 ≤ y₁) (h12 : y₁ ≤ y₂) :
    daysBeforeYear y₁ ≤ daysBeforeYear y₂ := by
  refine Nat.le_induction (le_refl _) ?_ y₂ h12
  intro n hn ih
  by_cases hL : isLeap n
  · rw [daysBeforeYear_succ n (by omega), if_pos hL]
    omega
  · rw [daysBeforeYear_succ n (by omega), if_neg hL]
    omega

theorem toordinal_strict_mono (a b : Date) (ha : validDate a) (hb : validDate b)
    (hab : calLt a b) : toordinal a < toordinal b := by
  obtain ⟨hay1, hay2, ham1, ham2, had1, had2⟩ := ha
  obtain ⟨hby1, hby2, hbm1, hbm2, hbd1, hbd2⟩ := hb
  unfold daysInMonth at had2 hbd2
  unfold toordinal
  rcases hab with hy | ⟨hyeq, hrest⟩
  · have hstep : daysBeforeMonth (isLeap a.y) a.m + daysInMonthL (isLeap a.y) a.m
        ≤ (if isLeap a.y then 366 else 365) :=
      daysBeforeMonth_total (isLeap a.y) a.m (by omega) ham1
    have hsucc := daysBeforeYear_succ a.y hay1
    have hmono := daysBeforeYear_mono (a.y + 1) b.y (by omega) (by omega)
    by_cases hL : isLeap a.y
    · rw [if_pos hL] at hstep hsucc
      omega
    · rw [if_neg hL] at hstep hsucc
      omega
  · rcases hrest with hm | ⟨hmeq, hd⟩
    · rw [hyeq] at had2 ⊢
      have hstep := daysBeforeMonth_step (isLeap b.y) a.m (by omega) ham1
      have hmono := daysBeforeMonth_mono (isLeap b.y) (a.m + 1) (by omega) b.m
        (by omega) (by omega)
      omega
    · rw [hyeq, hmeq]
      omega

/-- C9: date-to-number conversion is strictly order-preserving: for valid
calendar dates `a` and `b` with `a` before `b` in calendar order,
`date_to_num a < date_to_num b`, where `date_to_num` is the signed day
offset from the reference date 2002-01-01. -/
theorem C9_date_to_num_strict_mono (a b : Date) (ha : validDate a)
    (hb : validDate b) (hab : calLt a b) : date_to_num a < date_to_num b := by
  unfold date_to_num
  have := toordinal_strict_mono a b ha hb hab
  omega

/-- Witness for C9: 2002-12-31 precedes 2003-01-01 (a year boundary). -/
theorem C9_date_to_num_strict_mono_witness :
    validDate ⟨2002, 12, 31⟩ ∧ validDate ⟨2003, 1, 1⟩ ∧
    calLt ⟨2002, 12, 31⟩ ⟨2003, 1, 1⟩ ∧
    date_to_num ⟨2002, 12, 31⟩ < date_to_num ⟨2003, 1, 1⟩ :=
  ⟨by decide, by decide, by decide,
    C9_date_to_num_strict_mono _ _ (by decide) (by decide) (by decide)⟩

/-! ### Claims C7 and C10: the numeric evaluator on the embedded series -/

theorem Rounding.zero {rnd : ℚ → ℚ} (hrnd : Rounding rnd) : rnd 0 = 0 := by
  have h := hrnd.1 0
  simpa using h

theorem Rounding.ne_zero {rnd : ℚ → ℚ} (hrnd : Rounding rnd) (q : ℚ)
    (hq : q ≠ 0) : rnd q ≠ 0 := by
  intro h0
  have h := hrnd.1 q
  rw [h0, zero_sub, abs_neg] at h
  have hq' : 0 < |q| := abs_pos.mpr hq
  linarith

theorem intNumer_at_other (x_data : List ℤ) (k i : ℕ) (hk : k < x_data.length)
    (hik : i ≠ k) : intNumer x_data (x_data.getD k 0) i = 0 := by
  unfold intNumer
  rw [foldl_mul_eq_prod]
  rw [List.prod_eq_zero, mul_zero]
  refine List.mem_map.mpr ⟨k, List.mem_filter.mpr ⟨List.mem_range.mpr hk, ?_⟩, ?_⟩
  · simpa using fun h => hik h.symm
  · exact sub_self _

theorem intNumer_at_self (x_data : List ℤ) (k : ℕ) :
    intNumer x_data (x_data.getD k 0) k = intDenom x_data k := rfl

theorem foldl_fadd_all_zero (rnd : ℚ → ℚ) (h0 : rnd 0 = 0) (g : ℕ → ℚ) :
    ∀ l : List ℕ, (∀ i ∈ l, g i = 0) →
      l.foldl (fun r i => fadd rnd r (g i)) 0 = 0 := by
  intro l
  induction l with
  | nil => intro _; rfl
  | cons i l ih =>
    intro hz
    simp only [List.foldl_cons]
    have hstep : fadd rnd 0 (g i) = 0 := by
      rw [hz i (by simp)]
      simpa [fadd] using h0
    rw [hstep]
    exact ih (fun j hj => hz j (List.mem_cons_of_mem _ hj))

theorem foldl_fadd_single (rnd : ℚ → ℚ) (h0 : rnd 0 = 0) (g : ℕ → ℚ) :
    ∀ n k : ℕ, k < n → (∀ i, i < n → i ≠ k → g i = 0) → rnd (g k) = g k →
      (List.range n).foldl (fun r i => fadd rnd r (g i)) 0 = g k := by
  intro n
  induction n with
  | zero => omega
  | succ n ih =>
    intro k hk hz hfix
    rw [List.range_succ, List.foldl_append]
    by_cases hkn : k = n
    · subst hkn
      rw [foldl_fadd_all_zero rnd h0 g (List.range k)
        (fun i hi => hz i (Nat.lt_succ_of_lt (List.mem_range.mp hi))
          (Nat.ne_of_lt (List.mem_range.mp hi)))]
      simpa [fadd] using hfix
    · rw [ih k (by omega) (fun i hi hik => hz i (by omega) hik) hfix]
      have hgn : g n = 0 := hz n (by omega) (fun h => hkn h.symm)
      simpa [fadd, hgn] using hfix

theorem float_one_term_bound (rnd : ℚ → ℚ) (hrnd : Rounding rnd) (y F : ℚ)
    (hF : F ≠ 0) :
    |fdiv rnd (fmul rnd y F) F - y| ≤ 3 * |y| / 2 ^ 53 := by
  have hFpos : 0 < |F| := abs_pos.mpr hF
  have h1 := hrnd.1 (y * F)
  have h2 := hrnd.1 (rnd (y * F) / F)
  have key1 : |rnd (y * F) / F - y| ≤ |y| / 2 ^ 53 := by
    have hrw : rnd (y * F) / F - y = (rnd (y * F) - y * F) / F := by
      field_simp
      ring
    rw [hrw, abs_div]
    calc |rnd (y * F) - y * F| / |F| ≤ (|y * F| / 2 ^ 53) / |F| := by
          exact (div_le_div_iff_of_pos_right hFpos).mpr h1
      _ = |y| / 2 ^ 53 := by
          rw [abs_mul, div_div, mul_comm ((2 : ℚ) ^ 53) |F|, mul_comm |y| |F|]
          exact mul_div_mul_left _ _ (ne_of_gt hFpos)
  have key3 : |rnd (y * F) / F| ≤ |y| + |y| / 2 ^ 53 := by
    calc |rnd (y * F) / F| = |y + (rnd (y * F) / F - y)| := by ring_nf
      _ ≤ |y| + |rnd (y * F) / F - y| := abs_add _ _
      _ ≤ |y| + |y| / 2 ^ 53 := by linarith
  have htri : |fdiv rnd (fmul rnd y F) F - y|
      ≤ |fdiv rnd (fmul rnd y F) F - rnd (y * F) / F| + |rnd (y * F) / F - y| :=
    abs_sub_le _ _ _
  have key2 : |fdiv rnd (fmul rnd y F) F - rnd (y * F) / F|
      ≤ |rnd (y * F) / F| / 2 ^ 53 := h2
  have hy0 : 0 ≤ |y| := abs_nonneg y
  have hsmall : |y| / 2 ^ 53 / 2 ^ 53 ≤ |y| / 2 ^ 53 := by
    rw [div_div]
    gcongr
    · norm_num
  linarith

/-- At a target equal to sample `k`, every Lagrange term except the `k`-th is
exactly zero even in float arithmetic (its integer numerator is exactly 0),
the `k`-th term's numerator and denominator are the identical integer, and
the returned value differs from `y_data[k]` by at most a relative `3·2⁻⁵³`. -/
theorem lagrange_interpolation_at_sample (rnd : ℚ → ℚ) (hrnd : Rounding rnd)
    (x_data : List ℤ) (y_data : List ℚ) (k : ℕ) (hk : k < x_data.length)
    (hden : ∀ i, i < x_data.length → intDenom x_data i ≠ 0) :
    ∃ v, lagrange_interpolation rnd (x_data.getD k 0) x_data y_data = some v ∧
      |v - y_data.getD k 0| ≤ 3 * |y_data.getD k 0| / 2 ^ 53 := by
  have h0 : rnd 0 = 0 := Rounding.zero hrnd
  have hcond : ((List.range x_data.length).all fun i => intDenom x_data i != 0)
      = true := by
    rw [List.all_eq_true]
    intro i hi
    exact bne_iff_ne.mpr (hden i (List.mem_range.mp hi))
  have hzero : ∀ i, i < x_data.length → i ≠ k →
      (fun i => fdiv rnd
        (fmul rnd (y_data.getD i 0) (rnd (intNumer x_data (x_data.getD k 0) i : ℚ)))
        (rnd (intDenom x_data i : ℚ))) i = 0 := by
    intro i hi hik
    have hnum := intNumer_at_other x_data k i hk hik
    show fdiv rnd (fmul rnd (y_data.getD i 0)
      (rnd ((intNumer x_data (x_data.getD k 0) i : ℤ) : ℚ)))
      (rnd ((intDenom x_data i : ℤ) : ℚ)) = 0
    rw [hnum]
    unfold fmul fdiv
    rw [Int.cast_zero, h0, mul_zero, h0, zero_div, h0]
  have hfix : rnd ((fun i => fdiv rnd
      (fmul rnd (y_data.getD i 0) (rnd (intNumer x_data (x_data.getD k 0) i : ℚ)))
      (rnd (intDenom x_data i : ℚ))) k)
      = (fun i => fdiv rnd
        (fmul rnd (y_data.getD i 0) (rnd (intNumer x_data (x_data.getD k 0) i : ℚ)))
        (rnd (intDenom x_data i : ℚ))) k := by
    simp only [fdiv]
    exact hrnd.2 _
  have hgk : |(fun i => fdiv rnd
      (fmul rnd (y_data.getD i 0) (rnd (intNumer x_data (x_data.getD k 0) i : ℚ)))
      (rnd (intDenom x_data i : ℚ))) k - y_data.getD k 0|
      ≤ 3 * |y_data.getD k 0| / 2 ^ 53 := by
    have hD : (intDenom x_data k : ℚ) ≠ 0 := by
      exact_mod_cast hden k hk
    have hF : rnd (intDenom x_data k : ℚ) ≠ 0 := Rounding.ne_zero hrnd _ hD
    have hb := float_one_term_bound rnd hrnd (y_data.getD k 0)
      (rnd (intDenom x_data k : ℚ)) hF
    show |fdiv rnd (fmul rnd (y_data.getD k 0)
      (rnd ((intNumer x_data (x_data.getD k 0) k : ℤ) : ℚ)))
      (rnd ((intDenom x_data k : ℤ) : ℚ)) - y_data.getD k 0|
      ≤ 3 * |y_data.getD k 0| / 2 ^ 53
    rw [intNumer_at_self]
    exact hb
  refine ⟨_, ?_, hgk⟩
  unfold lagrange_interpolation
  rw [if_pos hcond]
  congr 1
  exact foldl_fadd_single rnd h0 _ x_data.length k hk hzero hfix

theorem forex_rates_getD (rnd : ℚ → ℚ) (k : ℕ) (hk : k < 24) :
    (forex_rates rnd).getD k 0 = rnd (forex_rates_exact.getD k 0) := by
  have hlen : forex_rates_exact.length = 24 := rfl
  unfold forex_rates
  rw [List.getD_eq_getElem?_getD,
    List.getElem?_eq_getElem (by rw [List.length_map, hlen]; exact hk),
    List.getElem_map, Option.getD_some, List.getD_eq_getElem?_getD,
    List.getElem?_eq_getElem (by rw [hlen]; exact hk), Option.getD_some]

/-- C7: for every faithful binary64 rounding and every `k < 24`, interpolating
at the `k`-th sample date of the embedded series returns that sample's rate
to within absolute tolerance `10⁻⁹` of the decimal literal in the source (in
particular, for target "2002-01-01", i.e. `k = 0`, the value is 26.5850 up to
that tolerance; the GUI then formats it with four decimals). -/
theorem C7_sample_date_returns_sample_rate (rnd : ℚ → ℚ) (hrnd : Rounding rnd)
    (k : ℕ) (hk : k < 24) :
    ∃ v, interpolate_exchange_rate rnd (forex_dates.getD k (""))
        = some (FxResult.rate v) ∧
      |v - forex_rates_exact.getD k 0| ≤ 1 / 1000000000 := by
  have hparse : ∀ j, j < 24 →
      date_to_num_str (forex_dates.getD j ("")) = some (date_values.getD j 0) := by
    decide
  have hlen : date_values.length = 24 := rfl
  have hden : ∀ i, i < date_values.length → intDenom date_values i ≠ 0 := by
    decide
  obtain ⟨v, hv, hbound⟩ := lagrange_interpolation_at_sample rnd hrnd date_values
    (forex_rates rnd) k (by omega) hden
  rw [forex_rates_getD rnd k hk] at hbound
  refine ⟨v, ?_, ?_⟩
  · unfold interpolate_exchange_rate
    rw [hparse k hk]
    show ((lagrange_interpolation rnd (date_values.getD k 0) date_values
      (forex_rates rnd)).map FxResult.rate) = some (FxResult.rate v)
    rw [hv]
    rfl
  · have habs : |forex_rates_exact.getD k 0| ≤ 41 := by
      have hall : ∀ j, j < 24 → |forex_rates_exact.getD j 0| ≤ 41 := by
        with_unfolding_all decide
      exact hall k hk
    have h1 := hrnd.1 (forex_rates_exact.getD k 0)
    have h2 : |rnd (forex_rates_exact.getD k 0)|
        ≤ |forex_rates_exact.getD k 0| + |forex_rates_exact.getD k 0| / 2 ^ 53 := by
      calc |rnd (forex_rates_exact.getD k 0)|
          = |forex_rates_exact.getD k 0
              + (rnd (forex_rates_exact.getD k 0) - forex_rates_exact.getD k 0)| := by
            rw [show forex_rates_exact.getD k 0
              + (rnd (forex_rates_exact.getD k 0) - forex_rates_exact.getD k 0)
              = rnd (forex_rates_exact.getD k 0) from by ring]
        _ ≤ |forex_rates_exact.getD k 0|
              + |rnd (forex_rates_exact.getD k 0) - forex_rates_exact.getD k 0| :=
            abs_add _ _
        _ ≤ |forex_rates_exact.getD k 0| + |forex_rates_exact.getD k 0| / 2 ^ 53 := by
            linarith
    have htri : |v - forex_rates_exact.getD k 0|
        ≤ |v - rnd (forex_rates_exact.getD k 0)|
          + |rnd (forex_rates_exact.getD k 0) - forex_rates_exact.getD k 0| :=
      abs_sub_le _ _ _
    have habs0 : (0 : ℚ) ≤ |forex_rates_exact.getD k 0| := abs_nonneg _
    linarith

/-- Witness for C7 with the exact rounding `id` (a member of the faithful
rounding family) at the first sample date. -/
theorem C7_sample_date_returns_sample_rate_witness :
    Rounding id ∧ (0 : ℕ) < 24 ∧
    (∃ v, interpolate_exchange_rate id (forex_dates.getD 0 (""))
        = some (FxResult.rate v) ∧
      |v - forex_rates_exact.getD 0 0| ≤ 1 / 1000000000) := by
  have hid : Rounding id := by
    constructor
    · intro q
      simp only [id_eq, sub_self, abs_zero]
      positivity
    · intro q
      rfl
  exact ⟨hid, by decide, C7_sample_date_returns_sample_rate id hid 0 (by decide)⟩

/-- C10: for every rounding function and every input string,
`interpolate_exchange_rate` returns a message — the invalid-date message when
the date does not parse (the `ValueError` is caught), the formatted rate
otherwise — and never lets an exception escape: the division-by-zero path is
unreachable because the embedded series' date values are pairwise distinct. -/
theorem C10_interpolate_exchange_rate_total :
    (∀ (rnd : ℚ → ℚ) (s : String),
      (interpolate_exchange_rate rnd s).isSome = true) ∧
    date_values.Pairwise (· ≠ ·) := by
  constructor
  · intro rnd s
    unfold interpolate_exchange_rate
    cases h : date_to_num_str s with
    | none => rfl
    | some x =>
      show ((lagrange_interpolation rnd x date_values
        (forex_rates rnd)).map FxResult.rate).isSome = true
      unfold lagrange_interpolation
      have hc : ((List.range date_values.length).all fun i =>
          intDenom date_values i != 0) = true := by
        decide
      rw [if_pos hc]
      rfl
  · decide
